import Mathlib

/-!
Verification of the bounded concurrent process supervisor and the URL/filename
helpers of `wget-mp.py`.

The supervisor (`ProcessPool`) is embedded shallowly: wall-clock time is an
explicit `Nat` parameter (seconds), a child process is a record carrying its
start time, its natural exit time (`none` = would run forever) and whether a
kill signal has been sent to it.  `poll() == None` (process still running) is
modelled by `Proc.running`.  The poll-sleep loops of `run` and `finalize` are
modelled with explicit fuel: a result of `none` means the loop did not
terminate within the given fuel.  Every kill signal issued is recorded as an
event (`Ev`) tagged with the operation that issued it and the time.
-/

/-- A launched child process as the supervisor sees it: pid, the recorded
start time (`start_timer`), the absolute time at which it would exit on its
own (`none` = never), and whether a kill signal has been sent to it. -/
structure Proc where
  pid : Nat
  startTime : Nat
  exitTime : Option Nat
  killed : Bool
deriving DecidableEq

/-- Models `poll() == None`: the process is still running at time `t`.  A process
runs until its natural exit time unless a kill signal has been sent. -/
def Proc.running (p : Proc) (t : Nat) : Bool :=
  !p.killed &&
    (match p.exitTime with
     | some e => decide (t < e)
     | none => true)

/-- Models `get_runtime()`: elapsed time since the recorded start time. -/
def Proc.runtime (p : Proc) (t : Nat) : Nat :=
  t - p.startTime

/-- Models `p.kill()`: send the kill signal. -/
def Proc.kill (p : Proc) : Proc :=
  { p with killed := true }

/-- A kill signal issued by the supervisor: either a per-process-timeout kill
inside a sweep (`__clean`), or a kill inside `killall`.  The event records the
process as it was polled and the time of the kill. -/
inductive Ev where
  | sweepKill (p : Proc) (t : Nat)
  | killallKill (p : Proc) (t : Nat)
deriving DecidableEq

/-- The process targeted by a kill event. -/
def Ev.target : Ev → Proc
  | .sweepKill p _ => p
  | .killallKill p _ => p

/-- The time at which a kill event was issued. -/
def Ev.time : Ev → Nat
  | .sweepKill _ t => t
  | .killallKill _ t => t

/-- Whether the event is a per-process-timeout kill issued by a sweep. -/
def Ev.isSweepKill : Ev → Bool
  | .sweepKill _ _ => true
  | .killallKill _ _ => false

/-- Supervisor state: the running set `self.proc` plus the two configuration
scalars of `ProcessPool.__init__`. -/
structure ProcessPool where
  proc : List Proc
  process_timeout : Int
  max_processes : Int
deriving DecidableEq

/-- The body of `ProcessPool.__clean` at time `t`: one pass over the tracked
processes building the new running set (`newproc`) and the kill events.  A
process that polls as exited is dropped; a running process whose runtime
exceeds a positive `process_timeout` is killed and dropped; any other running
process is kept. -/
def sweepList (pt : Int) (t : Nat) : List Proc → List Proc × List Ev
  | [] => ([], [])
  | p :: ps =>
    let r := sweepList pt t ps
    if p.running t then
      if 0 < pt ∧ pt < (p.runtime t : Int) then
        (r.1, Ev.sweepKill p t :: r.2)
      else
        (p :: r.1, r.2)
    else
      r

/-- Models `ProcessPool.__clean` at time `t`: replaces `self.proc` by the swept list
and reports the kill signals issued. -/
def ProcessPool.clean (pool : ProcessPool) (t : Nat) : ProcessPool × List Ev :=
  let r := sweepList pool.process_timeout t pool.proc
  ({ pool with proc := r.1 }, r.2)

/-- Models `ProcessPool.killall` at time `t`: polls every tracked process and sends a
kill signal to each one still running.  The list `self.proc` itself is not
modified (no process is removed); only the processes' own state changes. -/
def ProcessPool.killall (pool : ProcessPool) (t : Nat) : ProcessPool × List Ev :=
  ({ pool with proc := pool.proc.map (fun p => if p.running t then p.kill else p) },
   (pool.proc.filter (fun p => p.running t)).map (fun p => Ev.killallKill p t))

/-- A job handed to `ProcessPool.run`: the pid the child would get, how long
it would run on its own (`none` = forever), and whether `subprocess.Popen`
succeeds for it (`false` models e.g. a missing executable). -/
structure Job where
  pid : Nat
  lifetime : Option Nat
  ok : Bool
deriving DecidableEq

/-- Models `subprocess.Popen(cmd)` followed by `p.start_timer()` at time `t`. -/
def Job.spawn (j : Job) (t : Nat) : Proc :=
  { pid := j.pid, startTime := t, exitTime := j.lifetime.map (fun d => t + d),
    killed := false }

/-- The capacity-wait loop of `ProcessPool.run`: while
`len(self.proc) >= self.max_processes`, run `__clean` and sleep one second.
Returns the pool and time at loop exit, the kill events issued by the sweeps,
and the running-set size observed at each sweep boundary (right after each
`__clean`).  `none` means the loop did not exit within `fuel` iterations. -/
def runWait (fuel : Nat) (pool : ProcessPool) (t : Nat) :
    Option (ProcessPool × Nat × List Ev × List Nat) :=
  match fuel with
  | 0 =>
    if pool.max_processes ≤ (pool.proc.length : Int) then none
    else some (pool, t, [], [])
  | fuel + 1 =>
    if pool.max_processes ≤ (pool.proc.length : Int) then
      match runWait fuel (pool.clean t).1 (t + 1) with
      | none => none
      | some (p2, t2, evs2, obs2) =>
        some (p2, t2, (pool.clean t).2 ++ evs2, (pool.clean t).1.proc.length :: obs2)
    else some (pool, t, [], [])

/-- Outcome of one `ProcessPool.run` call: either the job was spawned and
appended, or `Popen` raised and the exception propagated with the pool in
whatever state the capacity-wait sweeps left it.  Both carry the exit time,
the kill events of the wait loop and the sweep-boundary sizes. -/
inductive RunResult where
  | ok (pool : ProcessPool) (t : Nat) (evs : List Ev) (obs : List Nat)
  | spawnFailed (pool : ProcessPool) (t : Nat) (evs : List Ev) (obs : List Nat)
deriving DecidableEq

/-- Whether a `run` call completed normally. -/
def RunResult.isOk : RunResult → Bool
  | .ok _ _ _ _ => true
  | .spawnFailed _ _ _ _ => false

/-- Models `ProcessPool.run(cmd)` starting at time `t`: wait for capacity, then
spawn the job, start its timer and append it to `self.proc`. -/
def ProcessPool.run (pool : ProcessPool) (j : Job) (fuel t : Nat) :
    Option RunResult :=
  match runWait fuel pool t with
  | none => none
  | some (pool1, t1, evs, obs) =>
    if j.ok then
      some (RunResult.ok { pool1 with proc := pool1.proc ++ [j.spawn t1] } t1 evs obs)
    else
      some (RunResult.spawnFailed pool1 t1 evs obs)

/-- The wait loop of `ProcessPool.finalize`: while `len(self.proc) > 0`, if a
positive global timeout has elapsed call `killall`, then run `__clean` and
sleep one second.  `stime` is the time `finalize` started; `none` means the
loop did not exit within `fuel` iterations. -/
def finWait (timeout : Int) (stime fuel : Nat) (pool : ProcessPool) (t : Nat) :
    Option (ProcessPool × Nat × List Ev) :=
  match fuel with
  | 0 => if pool.proc.length = 0 then some (pool, t, []) else none
  | fuel + 1 =>
    if pool.proc.length = 0 then some (pool, t, [])
    else
      let r1 := if 0 < timeout ∧ timeout ≤ ((t - stime : Nat) : Int)
                then pool.killall t else (pool, [])
      match finWait timeout stime fuel (r1.1.clean t).1 (t + 1) with
      | none => none
      | some (p3, t3, evs3) => some (p3, t3, r1.2 ++ (r1.1.clean t).2 ++ evs3)

/-- Models `ProcessPool.finalize(timeout)` starting at time `t`: one initial sweep,
then the wait loop. -/
def ProcessPool.finalize (pool : ProcessPool) (timeout : Int) (fuel t : Nat) :
    Option (ProcessPool × Nat × List Ev) :=
  match finWait timeout t fuel (pool.clean t).1 t with
  | none => none
  | some (p2, t2, evs2) => some (p2, t2, (pool.clean t).2 ++ evs2)

/-- A sequence of sequential `run` calls, as the main loop of the script
performs them.  Collects all sweep-boundary sizes and, after each successful
admission, the size of the running set right after the append.  Stops with
`none` if a wait loop runs out of fuel or a spawn fails. -/
def submitAll (fuel : Nat) (pool : ProcessPool) (t : Nat) :
    List Job → Option (ProcessPool × Nat × List Ev × List Nat)
  | [] => some (pool, t, [], [])
  | j :: js =>
    match pool.run j fuel t with
    | some (RunResult.ok pool1 t1 evs1 obs1) =>
      match submitAll fuel pool1 t1 js with
      | some (p2, t2, evs2, obs2) =>
        some (p2, t2, evs1 ++ evs2, (obs1 ++ [pool1.proc.length]) ++ obs2)
      | none => none
    | _ => none

/-- Drops leading slashes with `List.dropWhile`: the `/+` tail of the scheme regex. -/
def dropSlashes (s : List Char) : List Char :=
  s.dropWhile (fun c => c = '/')

/-- Models `re.sub("^(https?|ftp|file):/+", "", url)`: an anchored match strips one
scheme name, the colon and every slash directly following it; anything else
is left unchanged. -/
def stripScheme : List Char → List Char
  | 'h' :: 't' :: 't' :: 'p' :: 's' :: ':' :: '/' :: r => dropSlashes r
  | 'h' :: 't' :: 't' :: 'p' :: ':' :: '/' :: r => dropSlashes r
  | 'f' :: 't' :: 'p' :: ':' :: '/' :: r => dropSlashes r
  | 'f' :: 'i' :: 'l' :: 'e' :: ':' :: '/' :: r => dropSlashes r
  | s => s

/-- Models `re.sub("/+$", "", target)`: drop every trailing slash. -/
def dropTrailingSlashes (s : List Char) : List Char :=
  (s.reverse.dropWhile (fun c => c = '/')).reverse

/-- Models `url2filename(url)`: strip the scheme, strip trailing slashes, then
replace every `/` by `+` and every space by `_`. -/
def url2filename (url : List Char) : List Char :=
  ((dropTrailingSlashes (stripScheme url)).map
      (fun c => if c = '/' then '+' else c)).map
    (fun c => if c = ' ' then '_' else c)

/-- Helper for `re.sub(".*/", "", filename)`, walking the reversed string.
With the flag clear, keep characters until the first slash (the last slash of
the current line); with the flag set, drop the rest of the line, keep the
newline that ends it and clear the flag. -/
def spAux : Bool → List Char → List Char
  | _, [] => []
  | false, c :: cs => if c = '/' then spAux true cs else c :: spAux false cs
  | true, c :: cs => if c = '\n' then c :: spAux false cs else spAux true cs

/-- Models `re.sub(".*/", "", filename)`: within each line (`.` does not match a
newline), remove everything up to and including the last slash. -/
def stripPath (s : List Char) : List Char :=
  (spAux false s.reverse).reverse

/-- Models `guessUrlFromFilename(filename)`: strip any path, prepend `http://`
(`re.sub("^", "http://", target)`), then replace every `+` by `/`. -/
def guessUrlFromFilename (filename : List Char) : List Char :=
  (('h' :: 't' :: 't' :: 'p' :: ':' :: '/' :: '/' :: stripPath filename).map
    (fun c => if c = '+' then '/' else c))

/-- Whether `//` occurs as a substring. -/
def hasDoubleSlash : List Char → Bool
  | '/' :: '/' :: _ => true
  | _ :: cs => hasDoubleSlash cs
  | [] => false

/-- A kill signal is safe when its target was observed still running
(`poll() == None`) at the moment the signal was issued. -/
def killIsSafe (e : Ev) : Prop :=
  e.target.running e.time = true

-- Basic lemmas -------------------------------------------------------------

theorem running_false_mono {p : Proc} {t t' : Nat} (htt : t ≤ t')
    (h : p.running t = false) : p.running t' = false := by
  unfold Proc.running at h ⊢
  cases hk : p.killed with
  | true => simp [hk]
  | false =>
    simp [hk] at h ⊢
    cases he : p.exitTime with
    | none => simp [he] at h
    | some e =>
      simp [he] at h ⊢
      omega

theorem sweepList_sublist (pt : Int) (t : Nat) (l : List Proc) :
    (sweepList pt t l).1.Sublist l := by
  induction l with
  | nil => simp [sweepList]
  | cons p ps ih =>
    simp only [sweepList]
    cases hr : p.running t with
    | false =>
      rw [if_neg (by simp [hr])]
      exact ih.cons p
    | true =>
      rw [if_pos rfl]
      by_cases hk : 0 < pt ∧ pt < (p.runtime t : Int)
      · rw [if_pos hk]
        exact ih.cons p
      · rw [if_neg hk]
        exact ih.cons₂ p

theorem sweepList_length_le (pt : Int) (t : Nat) (l : List Proc) :
    (sweepList pt t l).1.length ≤ l.length :=
  (sweepList_sublist pt t l).length_le

theorem clean_proc_sublist (pool : ProcessPool) (t : Nat) :
    (pool.clean t).1.proc.Sublist pool.proc :=
  sweepList_sublist pool.process_timeout t pool.proc

theorem clean_process_timeout (pool : ProcessPool) (t : Nat) :
    (pool.clean t).1.process_timeout = pool.process_timeout := rfl

theorem clean_max_processes (pool : ProcessPool) (t : Nat) :
    (pool.clean t).1.max_processes = pool.max_processes := rfl

/-- If every tracked process polls as exited at time `t`, a sweep empties the
running set and issues no kill. -/
theorem sweepList_all_dead (pt : Int) (t : Nat) (l : List Proc)
    (h : ∀ p ∈ l, p.running t = false) : sweepList pt t l = ([], []) := by
  induction l with
  | nil => rfl
  | cons p ps ih =>
    have hp : p.running t = false := h p (by simp)
    simp only [sweepList, hp]
    simp only [ih (fun q hq => h q (by simp [hq]))]
    simp

/-- After `killall` at time `t`, every process in the (unchanged) running set
polls as exited at any time `t' ≥ t`. -/
theorem killall_all_dead (pool : ProcessPool) (t t' : Nat) (htt : t ≤ t') :
    ∀ p ∈ (pool.killall t).1.proc, p.running t' = false := by
  intro p hp
  simp only [ProcessPool.killall, List.mem_map] at hp
  obtain ⟨q, _, hq⟩ := hp
  subst hq
  cases hr : q.running t with
  | true =>
    rw [if_pos rfl]
    simp [Proc.kill, Proc.running]
  | false =>
    rw [if_neg (by simp [hr])]
    exact running_false_mono htt hr

/-- What the capacity-wait loop guarantees when it exits: the running set is
strictly below capacity, it is a sub-collection of the initial one, the
configuration is untouched, and every sweep-boundary size is bounded by the
initial size. -/
theorem runWait_spec (fuel : Nat) (pool : ProcessPool) (t : Nat)
    (p1 : ProcessPool) (t1 : Nat) (evs : List Ev) (obs : List Nat)
    (h : runWait fuel pool t = some (p1, t1, evs, obs)) :
    (p1.proc.length : Int) < pool.max_processes
    ∧ p1.proc.Sublist pool.proc
    ∧ p1.max_processes = pool.max_processes
    ∧ p1.process_timeout = pool.process_timeout
    ∧ ∀ n ∈ obs, n ≤ pool.proc.length := by
  induction fuel generalizing pool t evs obs with
  | zero =>
    rw [runWait] at h
    by_cases hc : pool.max_processes ≤ (pool.proc.length : Int)
    · rw [if_pos hc] at h
      exact absurd h (by simp)
    · rw [if_neg hc] at h
      simp only [Option.some.injEq, Prod.mk.injEq] at h
      obtain ⟨rfl, rfl, rfl, rfl⟩ := h
      exact ⟨by omega, List.Sublist.refl _, rfl, rfl, by simp⟩
  | succ fuel ih =>
    rw [runWait] at h
    by_cases hc : pool.max_processes ≤ (pool.proc.length : Int)
    · rw [if_pos hc] at h
      cases hr : runWait fuel (pool.clean t).1 (t + 1) with
      | none =>
        rw [hr] at h
        exact absurd h (by simp)
      | some r =>
        obtain ⟨p2, t2, evs2, obs2⟩ := r
        rw [hr] at h
        simp only [Option.some.injEq, Prod.mk.injEq] at h
        obtain ⟨rfl, rfl, rfl, rfl⟩ := h
        obtain ⟨h1, h2, h3, h4, h5⟩ := ih _ _ _ _ hr
        have hsub := clean_proc_sublist pool t
        refine ⟨by rw [clean_max_processes] at h1; exact h1,
          h2.trans hsub,
          by rw [h3, clean_max_processes],
          by rw [h4, clean_process_timeout], ?_⟩
        intro n hn
        rcases List.mem_cons.mp hn with hn | hn
        · subst hn
          exact hsub.length_le
        · exact (h5 n hn).trans hsub.length_le
    · rw [if_neg hc] at h
      simp only [Option.some.injEq, Prod.mk.injEq] at h
      obtain ⟨rfl, rfl, rfl, rfl⟩ := h
      exact ⟨by omega, List.Sublist.refl _, rfl, rfl, by simp⟩

/-- With a non-positive admission limit the capacity-wait loop can never
exit: the guard `len(self.proc) >= self.max_processes` holds even for an
empty running set. -/
theorem runWait_none_of_nonpos (pool : ProcessPool)
    (hmax : pool.max_processes ≤ 0) (fuel t : Nat) :
    runWait fuel pool t = none := by
  induction fuel generalizing pool t with
  | zero =>
    rw [runWait]
    rw [if_pos (le_trans hmax (by positivity))]
  | succ fuel ih =>
    rw [runWait]
    have hc : pool.max_processes ≤ (pool.proc.length : Int) :=
      le_trans hmax (by positivity)
    rw [if_pos hc, ih _ (by rw [clean_max_processes]; exact hmax)]

/-- A successful `run` keeps the admission invariant: the new process is
appended to a set that a sweep (or the initial check) left strictly below
capacity, so the result is at most `max_processes`; sweep-boundary sizes
never exceed the initial size; configuration is untouched. -/
theorem run_ok_spec (pool : ProcessPool) (j : Job) (fuel t : Nat)
    (p1 : ProcessPool) (t1 : Nat) (evs : List Ev) (obs : List Nat)
    (h : pool.run j fuel t = some (RunResult.ok p1 t1 evs obs)) :
    (p1.proc.length : Int) ≤ pool.max_processes
    ∧ p1.max_processes = pool.max_processes
    ∧ p1.process_timeout = pool.process_timeout
    ∧ (∀ n ∈ obs, n ≤ pool.proc.length)
    ∧ ∃ pre, p1.proc = pre ++ [j.spawn t1]
        ∧ (pre.length : Int) < pool.max_processes
        ∧ pre.Sublist pool.proc := by
  rw [ProcessPool.run] at h
  cases hw : runWait fuel pool t with
  | none =>
    rw [hw] at h
    exact absurd h (by simp)
  | some r =>
    obtain ⟨p2, t2, evs2, obs2⟩ := r
    rw [hw] at h
    simp only [] at h
    obtain ⟨h1, h2, h3, h4, h5⟩ := runWait_spec fuel pool t _ _ _ _ hw
    by_cases ho : j.ok
    · rw [if_pos ho] at h
      simp only [Option.some.injEq, RunResult.ok.injEq] at h
      obtain ⟨hp, rfl, rfl, rfl⟩ := h
      subst hp
      refine ⟨by simp; omega, h3, h4, h5, p2.proc, rfl, h1, h2⟩
    · rw [if_neg ho] at h
      exact absurd h (by simp)

/-- The wait loop of `finalize` exits only with an empty running set. -/
theorem finWait_some_empty (timeout : Int) (stime fuel : Nat)
    (pool : ProcessPool) (t : Nat) (p1 : ProcessPool) (t1 : Nat) (evs : List Ev)
    (h : finWait timeout stime fuel pool t = some (p1, t1, evs)) :
    p1.proc = [] := by
  induction fuel generalizing pool t evs with
  | zero =>
    rw [finWait] at h
    by_cases hc : pool.proc.length = 0
    · rw [if_pos hc] at h
      simp only [Option.some.injEq, Prod.mk.injEq] at h
      obtain ⟨rfl, rfl, rfl⟩ := h
      exact List.length_eq_zero.mp hc
    · rw [if_neg hc] at h
      exact absurd h (by simp)
  | succ fuel ih =>
    rw [finWait] at h
    by_cases hc : pool.proc.length = 0
    · rw [if_pos hc] at h
      simp only [Option.some.injEq, Prod.mk.injEq] at h
      obtain ⟨rfl, rfl, rfl⟩ := h
      exact List.length_eq_zero.mp hc
    · rw [if_neg hc] at h
      simp only [] at h
      cases hr : finWait timeout stime fuel
          (((if 0 < timeout ∧ timeout ≤ ((t - stime : Nat) : Int)
             then pool.killall t else (pool, [])).1.clean t).1) (t + 1) with
      | none =>
        rw [hr] at h
        exact absurd h (by simp)
      | some r =>
        obtain ⟨p3, t3, evs3⟩ := r
        rw [hr] at h
        simp only [Option.some.injEq, Prod.mk.injEq] at h
        obtain ⟨rfl, rfl, rfl⟩ := h
        exact ih _ _ _ hr

/-- On an already-empty running set the wait loop of `finalize` returns at
once, whatever the fuel. -/
theorem finWait_empty_start (timeout : Int) (stime fuel : Nat)
    (pool : ProcessPool) (t : Nat) (h : pool.proc = []) :
    finWait timeout stime fuel pool t = some (pool, t, []) := by
  cases fuel with
  | zero => rw [finWait, if_pos (by simp [h])]
  | succ fuel => rw [finWait, if_pos (by simp [h])]

/-- Every kill a sweep issues is a `sweepKill` event for a process polled
as running at the sweep's time. -/
theorem sweepList_events (pt : Int) (t : Nat) (l : List Proc) :
    ∀ e ∈ (sweepList pt t l).2, ∃ p, e = Ev.sweepKill p t ∧ p.running t = true := by
  induction l with
  | nil => simp [sweepList]
  | cons p ps ih =>
    simp only [sweepList]
    cases hr : p.running t with
    | false =>
      rw [if_neg (by simp [hr])]
      exact ih
    | true =>
      rw [if_pos rfl]
      by_cases hk : 0 < pt ∧ pt < (p.runtime t : Int)
      · rw [if_pos hk]
        intro e he
        rcases List.mem_cons.mp he with he | he
        · exact ⟨p, he, hr⟩
        · exact ih e he
      · rw [if_neg hk]
        exact ih

/-- A process that meets the overdue-kill condition never survives a sweep:
every occurrence of it is killed, not kept. -/
theorem sweepList_not_mem_overdue (pt : Int) (t : Nat) (l : List Proc) (p : Proc)
    (hpt : 0 < pt) (hrun : p.running t = true) (hover : pt < (p.runtime t : Int)) :
    p ∉ (sweepList pt t l).1 := by
  induction l with
  | nil => simp [sweepList]
  | cons q qs ih =>
    simp only [sweepList]
    cases hr : q.running t with
    | false =>
      rw [if_neg (by simp [hr])]
      exact ih
    | true =>
      rw [if_pos rfl]
      by_cases hk : 0 < pt ∧ pt < (q.runtime t : Int)
      · rw [if_pos hk]
        exact ih
      · rw [if_neg hk]
        intro hcon
        rcases List.mem_cons.mp hcon with rfl | hcon
        · exact hk ⟨hpt, hover⟩
        · exact ih hcon

/-- A running tracked process whose runtime exceeds a positive per-process
timeout receives a kill signal during the sweep. -/
theorem sweepList_kill_mem (pt : Int) (t : Nat) (l : List Proc) (p : Proc)
    (hpt : 0 < pt) (hmem : p ∈ l) (hrun : p.running t = true)
    (hover : pt < (p.runtime t : Int)) :
    Ev.sweepKill p t ∈ (sweepList pt t l).2 := by
  induction l with
  | nil => cases hmem
  | cons q qs ih =>
    simp only [sweepList]
    rcases List.mem_cons.mp hmem with rfl | hmem
    · rw [if_pos hrun, if_pos ⟨hpt, hover⟩]
      exact List.mem_cons_self _ _
    · cases hr : q.running t with
      | false =>
        rw [if_neg (by simp [hr])]
        exact ih hmem
      | true =>
        rw [if_pos rfl]
        by_cases hk : 0 < pt ∧ pt < (q.runtime t : Int)
        · rw [if_pos hk]
          exact List.mem_cons_of_mem _ (ih hmem)
        · rw [if_neg hk]
          exact ih hmem

theorem clean_events (pool : ProcessPool) (t : Nat) :
    (pool.clean t).2 = (sweepList pool.process_timeout t pool.proc).2 := rfl

theorem clean_proc (pool : ProcessPool) (t : Nat) :
    (pool.clean t).1.proc = (sweepList pool.process_timeout t pool.proc).1 := rfl

/-- With no global timeout the wait loop of `finalize` never reaches the
`killall` call: every kill event it emits comes from a sweep. -/
theorem finWait_zero_events (stime fuel : Nat) (pool : ProcessPool) (t : Nat)
    (p1 : ProcessPool) (t1 : Nat) (evs : List Ev)
    (h : finWait 0 stime fuel pool t = some (p1, t1, evs)) :
    ∀ e ∈ evs, e.isSweepKill = true := by
  induction fuel generalizing pool t evs with
  | zero =>
    rw [finWait] at h
    by_cases hc : pool.proc.length = 0
    · rw [if_pos hc] at h
      simp only [Option.some.injEq, Prod.mk.injEq] at h
      obtain ⟨rfl, rfl, rfl⟩ := h
      simp
    · rw [if_neg hc] at h
      exact absurd h (by simp)
  | succ fuel ih =>
    rw [finWait] at h
    by_cases hc : pool.proc.length = 0
    · rw [if_pos hc] at h
      simp only [Option.some.injEq, Prod.mk.injEq] at h
      obtain ⟨rfl, rfl, rfl⟩ := h
      simp
    · rw [if_neg hc] at h
      simp only [] at h
      rw [if_neg (by simp : ¬((0 : Int) < 0 ∧ (0 : Int) ≤ ((t - stime : Nat) : Int)))] at h
      simp only [] at h
      cases hr : finWait 0 stime fuel ((pool.clean t).1) (t + 1) with
      | none =>
        rw [hr] at h
        exact absurd h (by simp)
      | some r =>
        obtain ⟨p3, t3, evs3⟩ := r
        rw [hr] at h
        simp only [Option.some.injEq, Prod.mk.injEq] at h
        obtain ⟨rfl, rfl, rfl⟩ := h
        intro e he
        simp only [List.nil_append, List.mem_append] at he
        rcases he with he | he
        · obtain ⟨p, rfl, -⟩ := sweepList_events _ _ _ e (by rw [← clean_events]; exact he)
          rfl
        · exact ih _ _ _ hr e he

/-- After `killall` at time `t`, a sweep at any `t' ≥ t` empties the running
set and issues no further kill. -/
theorem killall_then_clean (pool : ProcessPool) (t t' : Nat) (htt : t ≤ t') :
    ((pool.killall t).1.clean t').1.proc = [] ∧ ((pool.killall t).1.clean t').2 = [] := by
  have hall := sweepList_all_dead (pool.killall t).1.process_timeout t'
    (pool.killall t).1.proc (killall_all_dead pool t t' htt)
  rw [clean_proc, clean_events, hall]
  exact ⟨rfl, rfl⟩

/-- Once the elapsed time of the `finalize` loop has reached a positive
global timeout `G`, the loop returns within one more iteration; together with
the iterations before that point, it always returns by `stime + G + 1`. -/
theorem finWait_timeout_bound (G : Int) (hG : 0 < G) (stime : Nat) :
    ∀ fuel t pool, stime ≤ t → t ≤ stime + G.toNat →
      stime + G.toNat + 2 - t ≤ fuel →
      ∃ p1 t1 evs, finWait G stime fuel pool t = some (p1, t1, evs)
        ∧ t1 ≤ stime + G.toNat + 1 := by
  intro fuel
  induction fuel with
  | zero =>
    intro t pool h1 h2 h3
    omega
  | succ fuel ih =>
    intro t pool h1 h2 h3
    by_cases hc : pool.proc.length = 0
    · exact ⟨pool, t, [], by rw [finWait, if_pos hc], by omega⟩
    · by_cases hd : G ≤ ((t - stime : Nat) : Int)
      · have hkill := killall_then_clean pool t t le_rfl
        have heq : finWait G stime (fuel + 1) pool t =
            some ((((pool.killall t).1.clean t).1), t + 1,
              (pool.killall t).2 ++ ((pool.killall t).1.clean t).2 ++ []) := by
          rw [finWait, if_neg hc]
          simp only []
          rw [if_pos ⟨hG, hd⟩, finWait_empty_start _ _ _ _ _ hkill.1]
        exact ⟨_, t + 1, _, heq, by omega⟩
      · have hd' : ((t - stime : Nat) : Int) < G := lt_of_not_le hd
        obtain ⟨p1, t1, evs, hf, hb⟩ := ih (t + 1) ((pool.clean t).1)
          (by omega) (by omega) (by omega)
        have heq : finWait G stime (fuel + 1) pool t =
            some (p1, t1, [] ++ (pool.clean t).2 ++ evs) := by
          rw [finWait, if_neg hc]
          simp only []
          rw [if_neg (fun hcon => hd hcon.2)]
          simp only []
          rw [hf]
        exact ⟨p1, t1, _, heq, hb⟩

theorem dropWhile_head_ne (l : List Char) (c : Char) (h : l.head? ≠ some c) :
    l.dropWhile (fun x => x = c) = l := by
  cases l with
  | nil => rfl
  | cons a as =>
    have hac : a ≠ c := by
      intro hac
      exact h (by simp [hac])
    simp [List.dropWhile_cons, hac]

theorem dropSlashes_noop (l : List Char) (h : l.head? ≠ some '/') :
    dropSlashes l = l :=
  dropWhile_head_ne l '/' h

theorem dropTrailingSlashes_noop (l : List Char) (h : l.getLast? ≠ some '/') :
    dropTrailingSlashes l = l := by
  unfold dropTrailingSlashes
  rw [dropWhile_head_ne _ _ (by rw [List.head?_reverse]; exact h),
    List.reverse_reverse]

theorem spAux_no_slash (l : List Char) (h : '/' ∉ l) : spAux false l = l := by
  induction l with
  | nil => rfl
  | cons a as ih =>
    have ha : ¬(a = '/') := fun hc => h (by simp [hc])
    simp only [spAux, ha, if_false, decide_eq_true_eq, if_neg ha]
    rw [ih (fun hc => h (List.mem_cons_of_mem _ hc))]

theorem stripPath_no_slash (l : List Char) (h : '/' ∉ l) : stripPath l = l := by
  unfold stripPath
  rw [spAux_no_slash _ (by simpa using h), List.reverse_reverse]

/-- Every kill signal issued by a sweep targets a process polled as running
at exactly that moment. -/
theorem clean_events_safe (pool : ProcessPool) (t : Nat) :
    ∀ e ∈ (pool.clean t).2, killIsSafe e := by
  intro e he
  rw [clean_events] at he
  obtain ⟨p, rfl, hrun⟩ := sweepList_events _ _ _ e he
  simpa [killIsSafe, Ev.target, Ev.time] using hrun

/-- Every kill signal issued by `killall` targets a process polled as running
at exactly that moment. -/
theorem killall_events_safe (pool : ProcessPool) (t : Nat) :
    ∀ e ∈ (pool.killall t).2, killIsSafe e := by
  intro e he
  simp only [ProcessPool.killall, List.mem_map, List.mem_filter] at he
  obtain ⟨p, ⟨hp, hrun⟩, rfl⟩ := he
  simpa [killIsSafe, Ev.target, Ev.time] using hrun

-- Claim theorems ------------------------------------------------------------

/-- C1, counterexample: `killall` on a non-empty running set does NOT result
in an empty running set.  With one still-running process, `self.proc` still
holds one entry after `killall` returns: the code sends kill signals but
never clears the list. -/
theorem killall_nonempty_cex :
    (({ proc := [{ pid := 1, startTime := 0, exitTime := none, killed := false }],
        process_timeout := 0, max_processes := 8 } : ProcessPool).proc ≠ [])
    ∧ (({ proc := [{ pid := 1, startTime := 0, exitTime := none, killed := false }],
          process_timeout := 0, max_processes := 8 } : ProcessPool).killall 0).1.proc ≠ [] := by
  decide

/-- C1, amended: `killall` sends a kill signal to exactly the tracked
processes still running, leaves the size of `self.proc` unchanged, and the
running set becomes empty at the next sweep (any `t' ≥ t`); on an empty set
it is a no-op (no kill signal, state unchanged). -/
theorem killall_spec (pool : ProcessPool) (t t' : Nat) (htt : t ≤ t') :
    (pool.killall t).1.proc.length = pool.proc.length
    ∧ (∀ p ∈ pool.proc,
        (Ev.killallKill p t ∈ (pool.killall t).2 ↔ p.running t = true))
    ∧ ((pool.killall t).1.clean t').1.proc = []
    ∧ (pool.proc = [] → pool.killall t = (pool, [])) := by
  refine ⟨by simp [ProcessPool.killall], ?_, (killall_then_clean pool t t' htt).1, ?_⟩
  · intro p hp
    constructor
    · intro hmem
      simp only [ProcessPool.killall, List.mem_map, List.mem_filter] at hmem
      obtain ⟨q, ⟨hq, hrun⟩, heq⟩ := hmem
      simp only [Ev.killallKill.injEq] at heq
      obtain ⟨rfl, -⟩ := heq
      exact hrun
    · intro hrun
      simp only [ProcessPool.killall, List.mem_map]
      exact ⟨p, List.mem_filter.mpr ⟨hp, hrun⟩, rfl⟩
  · intro hempty
    cases pool with
    | mk proc pt mx =>
      simp only at hempty
      subst hempty
      simp [ProcessPool.killall]

/-- C3: `finalize` returns only when the running set is empty, for every
initial state, global timeout and fuel. -/
theorem finalize_empty (pool : ProcessPool) (timeout : Int) (fuel t : Nat)
    (p1 : ProcessPool) (t1 : Nat) (evs : List Ev)
    (h : pool.finalize timeout fuel t = some (p1, t1, evs)) : p1.proc = [] := by
  rw [ProcessPool.finalize] at h
  cases hr : finWait timeout t fuel ((pool.clean t).1) t with
  | none =>
    rw [hr] at h
    exact absurd h (by simp)
  | some r =>
    obtain ⟨p2, t2, evs2⟩ := r
    rw [hr] at h
    simp only [Option.some.injEq, Prod.mk.injEq] at h
    obtain ⟨rfl, rfl, rfl⟩ := h
    exact finWait_some_empty _ _ _ _ _ _ _ _ hr

/-- C4: during a sweep with a positive per-process timeout, every tracked
process still running whose elapsed runtime exceeds the timeout receives a
kill signal at sweep time and is removed from the running set. -/
theorem clean_kills_overdue (pool : ProcessPool) (t : Nat) (p : Proc)
    (hpt : 0 < pool.process_timeout) (hmem : p ∈ pool.proc)
    (hrun : p.running t = true)
    (hover : pool.process_timeout < (p.runtime t : Int)) :
    Ev.sweepKill p t ∈ (pool.clean t).2 ∧ p ∉ (pool.clean t).1.proc := by
  rw [clean_events, clean_proc]
  exact ⟨sweepList_kill_mem _ _ _ _ hpt hmem hrun hover,
    sweepList_not_mem_overdue _ _ _ _ hpt hrun hover⟩

/-- C7: when spawning fails, `run` surfaces the failure synchronously and
the running set is exactly what the capacity-wait sweeps left: a
sub-collection of the original set, with configuration untouched — the
failed job is never added. -/
theorem run_spawn_failure (pool : ProcessPool) (j : Job) (fuel t : Nat)
    (r : RunResult) (hj : j.ok = false) (h : pool.run j fuel t = some r) :
    r.isOk = false
    ∧ ∃ p1 t1 evs obs, r = RunResult.spawnFailed p1 t1 evs obs
        ∧ p1.proc.Sublist pool.proc
        ∧ p1.max_processes = pool.max_processes
        ∧ p1.process_timeout = pool.process_timeout := by
  rw [ProcessPool.run] at h
  cases hw : runWait fuel pool t with
  | none =>
    rw [hw] at h
    exact absurd h (by simp)
  | some rr =>
    obtain ⟨p2, t2, evs2, obs2⟩ := rr
    rw [hw] at h
    simp only [] at h
    rw [if_neg (by simp [hj])] at h
    simp only [Option.some.injEq] at h
    subst h
    obtain ⟨-, h2, h3, h4, -⟩ := runWait_spec fuel pool t _ _ _ _ hw
    exact ⟨rfl, p2, t2, evs2, obs2, rfl, h2, h3, h4⟩

/-- C8: with a non-positive admission limit, `run` never returns, whatever
the fuel: the capacity check `len(self.proc) >= self.max_processes` holds
even for an empty running set, so `max_concurrency >= 1` is necessary for
`submit` to terminate. -/
theorem run_nonpos_never_returns (pool : ProcessPool)
    (hmax : pool.max_processes ≤ 0) (j : Job) (fuel t : Nat) :
    pool.run j fuel t = none := by
  rw [ProcessPool.run, runWait_none_of_nonpos pool hmax fuel t]

/-- C9: every kill signal the supervisor issues — a per-process-timeout kill
inside a sweep or a kill inside `killall` — targets a process polled as still
running immediately beforehand; an exited process is never signalled. -/
theorem kill_signals_target_running (pool : ProcessPool) (t : Nat) :
    (∀ e ∈ (pool.clean t).2, killIsSafe e)
    ∧ (∀ e ∈ (pool.killall t).2, killIsSafe e) :=
  ⟨clean_events_safe pool t, killall_events_safe pool t⟩

/-- Invariant propagation for sequences of `run` calls: if the running set
starts within capacity, then at every sweep boundary and after every
admission its size stays within capacity. -/
theorem submitAll_bounded_aux (jobs : List Job) :
    ∀ pool t fuel p2 t2 evs obs,
      (pool.proc.length : Int) ≤ pool.max_processes →
      submitAll fuel pool t jobs = some (p2, t2, evs, obs) →
      (∀ n ∈ obs, (n : Int) ≤ pool.max_processes)
      ∧ (p2.proc.length : Int) ≤ pool.max_processes := by
  induction jobs with
  | nil =>
    intro pool t fuel p2 t2 evs obs hinit h
    rw [submitAll] at h
    simp only [Option.some.injEq, Prod.mk.injEq] at h
    obtain ⟨rfl, rfl, rfl, rfl⟩ := h
    exact ⟨by simp, hinit⟩
  | cons j js ih =>
    intro pool t fuel p2 t2 evs obs hinit h
    rw [submitAll] at h
    cases hr : pool.run j fuel t with
    | none =>
      rw [hr] at h
      exact absurd h (by simp)
    | some r =>
      rw [hr] at h
      cases r with
      | spawnFailed q a b c =>
        simp only [] at h
        exact absurd h (by simp)
      | ok pool1 t1 evs1 obs1 =>
        simp only [] at h
        cases hs : submitAll fuel pool1 t1 js with
        | none =>
          rw [hs] at h
          exact absurd h (by simp)
        | some r2 =>
          obtain ⟨p3, t3, evs3, obs3⟩ := r2
          rw [hs] at h
          simp only [Option.some.injEq, Prod.mk.injEq] at h
          obtain ⟨rfl, rfl, rfl, rfl⟩ := h
          obtain ⟨hb1, hm, hpt, hobs, -⟩ := run_ok_spec pool j fuel t _ _ _ _ hr
          have hinit1 : (pool1.proc.length : Int) ≤ pool1.max_processes := by
            rw [hm]
            exact hb1
          obtain ⟨ih1, ih2⟩ := ih pool1 t1 fuel _ _ _ _ hinit1 hs
          rw [hm] at ih1 ih2
          refine ⟨?_, ih2⟩
          intro n hn
          simp only [List.mem_append, List.mem_cons] at hn
          rcases hn with (hn | rfl | h0) | hn
          · have := hobs n hn
            omega
          · exact hb1
          · exact absurd h0 (List.not_mem_nil n)
          · exact ih1 n hn

/-- C2: for every sequence of N sequential `run` calls with
`max_concurrency = K < N`, `K ≥ 1`, starting within capacity, the size of
the running set never exceeds K at any sweep boundary, and each admission
leaves the set at size at most K (the append happens only when the size is
strictly below K). -/
theorem submitAll_bounded (jobs : List Job) (pool : ProcessPool) (fuel t : Nat)
    (K : Int) (hK : pool.max_processes = K) (hK1 : 1 ≤ K)
    (hKN : K < (jobs.length : Int))
    (hinit : (pool.proc.length : Int) ≤ K)
    (p2 : ProcessPool) (t2 : Nat) (evs : List Ev) (obs : List Nat)
    (h : submitAll fuel pool t jobs = some (p2, t2, evs, obs)) :
    (∀ n ∈ obs, (n : Int) ≤ K) ∧ (p2.proc.length : Int) ≤ K := by
  subst hK
  exact submitAll_bounded_aux jobs pool t fuel p2 t2 evs obs hinit h

/-- C5: with a positive global timeout G (and fuel at least G + 2 poll
ticks), `finalize` always returns, and it returns by wall time G plus one
poll interval after it started, whatever the running set holds. -/
theorem finalize_timeout_bound (pool : ProcessPool) (G : Int) (hG : 0 < G)
    (fuel t : Nat) (hfuel : G.toNat + 2 ≤ fuel) :
    ∃ p1 t1 evs, pool.finalize G fuel t = some (p1, t1, evs)
      ∧ t1 ≤ t + G.toNat + 1 := by
  obtain ⟨p1, t1, evs, hf, hb⟩ := finWait_timeout_bound G hG t fuel t
    ((pool.clean t).1) le_rfl (by omega) (by omega)
  refine ⟨p1, t1, (pool.clean t).2 ++ evs, ?_, by omega⟩
  rw [ProcessPool.finalize, hf]

/-- C6: `finalize` with global timeout 0 never invokes `killall`: every kill
signal issued during such a drain is a per-process-timeout kill from a
sweep, and the call returns only once the running set is empty. -/
theorem finalize_zero_no_killall (pool : ProcessPool) (fuel t : Nat)
    (p1 : ProcessPool) (t1 : Nat) (evs : List Ev)
    (h : pool.finalize 0 fuel t = some (p1, t1, evs)) :
    p1.proc = [] ∧ ∀ e ∈ evs, e.isSweepKill = true := by
  rw [ProcessPool.finalize] at h
  cases hr : finWait 0 t fuel ((pool.clean t).1) t with
  | none =>
    rw [hr] at h
    exact absurd h (by simp)
  | some r =>
    obtain ⟨p2, t2, evs2⟩ := r
    rw [hr] at h
    simp only [Option.some.injEq, Prod.mk.injEq] at h
    obtain ⟨rfl, rfl, rfl⟩ := h
    refine ⟨finWait_some_empty _ _ _ _ _ _ _ _ hr, ?_⟩
    intro e he
    rcases List.mem_append.mp he with he | he
    · obtain ⟨p, rfl, -⟩ := sweepList_events _ _ _ e (by rw [← clean_events]; exact he)
      rfl
    · exact finWait_zero_events _ _ _ _ _ _ _ hr e he

theorem stripScheme_http (r : List Char) :
    stripScheme ('h' :: 't' :: 't' :: 'p' :: ':' :: '/' :: r) = dropSlashes r := rfl

/-- C10, counterexample: the URL `http:///a` satisfies every stated
condition — its remainder `/a` after the prefix `http://` is non-empty and
has no `+`, `_`, space, consecutive slashes or trailing slash — yet the
round trip loses the extra slash, because the scheme regex `:/+` also eats
the remainder's leading slash. -/
theorem url_roundtrip_cex :
    ("http:///a".toList = "http://".toList ++ "/a".toList
     ∧ "/a".toList ≠ []
     ∧ '+' ∉ "/a".toList ∧ '_' ∉ "/a".toList ∧ ' ' ∉ "/a".toList
     ∧ hasDoubleSlash "/a".toList = false
     ∧ ("/a".toList).getLast? ≠ some '/')
    ∧ guessUrlFromFilename (url2filename ("http:///a".toList)) ≠ "http:///a".toList := by
  decide

/-- C10, amended: the round trip additionally requires that the remainder
does not start with a slash; under the stated conditions plus that one,
`guessUrlFromFilename (url2filename url) = url` for
`url = "http://" ++ rest`. -/
theorem url_filename_roundtrip (rest : List Char) (hne : rest ≠ [])
    (hplus : '+' ∉ rest) (hund : '_' ∉ rest) (hsp : ' ' ∉ rest)
    (hdbl : hasDoubleSlash rest = false)
    (htr : rest.getLast? ≠ some '/') (hld : rest.head? ≠ some '/') :
    guessUrlFromFilename (url2filename ("http://".toList ++ rest))
      = "http://".toList ++ rest := by
  have hhttp : "http://".toList = ['h', 't', 't', 'p', ':', '/', '/'] := rfl
  rw [hhttp]
  simp only [List.cons_append, List.nil_append]
  have h1 : stripScheme ('h' :: 't' :: 't' :: 'p' :: ':' :: '/' :: '/' :: rest) = rest := by
    rw [stripScheme_http]
    show List.dropWhile (fun c => c = '/') ('/' :: rest) = rest
    rw [List.dropWhile_cons]
    simp only [decide_True, if_true]
    exact dropSlashes_noop rest hld
  rw [url2filename, h1, dropTrailingSlashes_noop rest htr]
  have hns : '/' ∉ (rest.map (fun c => if c = '/' then '+' else c)).map
      (fun c => if c = ' ' then '_' else c) := by
    intro hmem
    simp only [List.mem_map] at hmem
    obtain ⟨c, ⟨d, hd, rfl⟩, hc⟩ := hmem
    by_cases h1d : d = '/'
    · subst h1d
      exact absurd hc (by decide)
    · by_cases h2d : d = ' '
      · subst h2d
        exact absurd hc (by decide)
      · rw [if_neg h1d, if_neg h2d] at hc
        exact h1d hc
  rw [guessUrlFromFilename, stripPath_no_slash _ hns]
  have hL : ((rest.map (fun c => if c = '/' then '+' else c)).map
      (fun c => if c = ' ' then '_' else c)).map (fun c => if c = '+' then '/' else c)
      = rest := by
    rw [List.map_map, List.map_map]
    have hpt : ∀ c ∈ rest,
        (((fun c => if c = '+' then '/' else c) ∘ (fun c => if c = ' ' then '_' else c))
          ∘ (fun c => if c = '/' then '+' else c)) c = c := by
      intro c hc
      by_cases h1c : c = '/'
      · subst h1c
        decide
      · have h2c : c ≠ ' ' := fun h => hsp (h ▸ hc)
        have h3c : c ≠ '+' := fun h => hplus (h ▸ hc)
        simp only [Function.comp_apply, if_neg h1c, if_neg h2c, if_neg h3c]
    rw [List.map_congr_left hpt]
    simp
  simp only [List.map_cons, hL]
  rfl

-- Witnesses -----------------------------------------------------------------

/-- Witness for `killall_spec`: a concrete pool with one running process,
killed at time 0 and swept at time 1, leaving the running set empty. -/
theorem killall_spec_w :
    (0 : Nat) ≤ 1
    ∧ ((({ proc := [{ pid := 1, startTime := 0, exitTime := none, killed := false }],
           process_timeout := 0, max_processes := 8 } : ProcessPool).killall 0).1.clean 1).1.proc
        = [] :=
  ⟨by decide,
   (killall_spec
     { proc := [{ pid := 1, startTime := 0, exitTime := none, killed := false }],
       process_timeout := 0, max_processes := 8 } 0 1 (by decide)).2.2.1⟩

/-- Witness for `submitAll_bounded`: three one-second jobs through a pool of
capacity 2; every observed size stays at most 2. -/
theorem submitAll_bounded_w :
    (submitAll 5 { proc := [], process_timeout := 0, max_processes := 2 } 0
        [ { pid := 1, lifetime := some 1, ok := true },
          { pid := 2, lifetime := some 1, ok := true },
          { pid := 3, lifetime := some 1, ok := true } ]
      = some ({ proc := [{ pid := 3, startTime := 2, exitTime := some 3, killed := false }],
                process_timeout := 0, max_processes := 2 }, 2, [], [1, 2, 2, 0, 1]))
    ∧ ((∀ n ∈ ([1, 2, 2, 0, 1] : List Nat), (n : Int) ≤ 2)
        ∧ ((({ proc := [{ pid := 3, startTime := 2, exitTime := some 3, killed := false }],
               process_timeout := 0, max_processes := 2 } : ProcessPool).proc.length : Int) ≤ 2)) :=
  ⟨by decide,
   submitAll_bounded
     [ { pid := 1, lifetime := some 1, ok := true },
       { pid := 2, lifetime := some 1, ok := true },
       { pid := 3, lifetime := some 1, ok := true } ]
     { proc := [], process_timeout := 0, max_processes := 2 } 5 0 2 rfl (by decide) (by decide)
     (by decide)
     { proc := [{ pid := 3, startTime := 2, exitTime := some 3, killed := false }],
       process_timeout := 0, max_processes := 2 } 2 [] [1, 2, 2, 0, 1] (by decide)⟩

/-- Witness for `finalize_empty`: a pool whose one process exits after one
second; `finalize 0` returns with an empty running set. -/
theorem finalize_empty_w :
    (ProcessPool.finalize
        { proc := [{ pid := 1, startTime := 0, exitTime := some 1, killed := false }],
          process_timeout := 0, max_processes := 8 } 0 3 0
      = some ({ proc := [], process_timeout := 0, max_processes := 8 }, 2, []))
    ∧ ({ proc := [], process_timeout := 0, max_processes := 8 } : ProcessPool).proc = [] :=
  ⟨by decide,
   finalize_empty
     { proc := [{ pid := 1, startTime := 0, exitTime := some 1, killed := false }],
       process_timeout := 0, max_processes := 8 } 0 3 0
     { proc := [], process_timeout := 0, max_processes := 8 } 2 [] (by decide)⟩

/-- Witness for `clean_kills_overdue`: a process started at 0 and still
running at 10 in a pool with per-process timeout 5 is killed and removed by
the sweep at time 10. -/
theorem clean_kills_overdue_w :
    ((0 : Int) < 5
      ∧ ({ pid := 7, startTime := 0, exitTime := none, killed := false } : Proc).running 10 = true
      ∧ (5 : Int) < (({ pid := 7, startTime := 0, exitTime := none, killed := false } : Proc).runtime 10 : Int))
    ∧ (Ev.sweepKill { pid := 7, startTime := 0, exitTime := none, killed := false } 10
        ∈ (({ proc := [{ pid := 7, startTime := 0, exitTime := none, killed := false }],
              process_timeout := 5, max_processes := 8 } : ProcessPool).clean 10).2
      ∧ { pid := 7, startTime := 0, exitTime := none, killed := false }
          ∉ (({ proc := [{ pid := 7, startTime := 0, exitTime := none, killed := false }],
                process_timeout := 5, max_processes := 8 } : ProcessPool).clean 10).1.proc) :=
  ⟨by decide,
   clean_kills_overdue
     { proc := [{ pid := 7, startTime := 0, exitTime := none, killed := false }],
       process_timeout := 5, max_processes := 8 } 10
     { pid := 7, startTime := 0, exitTime := none, killed := false }
     (by decide) (by decide) (by decide) (by decide)⟩

/-- Witness for `finalize_timeout_bound`: with global timeout 1 and a
never-exiting process, `finalize` returns by time 0 + 1 + 1. -/
theorem finalize_timeout_bound_w :
    ((0 : Int) < 1 ∧ (1 : Int).toNat + 2 ≤ 3)
    ∧ ∃ p1 t1 evs,
        ProcessPool.finalize
            { proc := [{ pid := 1, startTime := 0, exitTime := none, killed := false }],
              process_timeout := 0, max_processes := 8 } 1 3 0 = some (p1, t1, evs)
        ∧ t1 ≤ 0 + (1 : Int).toNat + 1 :=
  ⟨by decide,
   finalize_timeout_bound
     { proc := [{ pid := 1, startTime := 0, exitTime := none, killed := false }],
       process_timeout := 0, max_processes := 8 } 1 (by decide) 3 0 (by decide)⟩

/-- Witness for `finalize_zero_no_killall`: a drain with no global timeout in
which the only kill is a per-process-timeout sweep kill. -/
theorem finalize_zero_no_killall_w :
    (ProcessPool.finalize
        { proc := [{ pid := 1, startTime := 0, exitTime := none, killed := false }],
          process_timeout := 1, max_processes := 8 } 0 4 0
      = some ({ proc := [], process_timeout := 1, max_processes := 8 }, 3,
          [Ev.sweepKill { pid := 1, startTime := 0, exitTime := none, killed := false } 2]))
    ∧ (({ proc := [], process_timeout := 1, max_processes := 8 } : ProcessPool).proc = []
      ∧ ∀ e ∈ [Ev.sweepKill { pid := 1, startTime := 0, exitTime := none, killed := false } 2],
          e.isSweepKill = true) :=
  ⟨by decide,
   finalize_zero_no_killall
     { proc := [{ pid := 1, startTime := 0, exitTime := none, killed := false }],
       process_timeout := 1, max_processes := 8 } 4 0
     { proc := [], process_timeout := 1, max_processes := 8 } 3
     [Ev.sweepKill { pid := 1, startTime := 0, exitTime := none, killed := false } 2]
     (by decide)⟩

/-- Witness for `run_spawn_failure`: a job whose spawn fails against an
empty pool of capacity 2. -/
theorem run_spawn_failure_w :
    (({ pid := 9, lifetime := some 5, ok := false } : Job).ok = false
      ∧ ProcessPool.run { proc := [], process_timeout := 0, max_processes := 2 }
          { pid := 9, lifetime := some 5, ok := false } 3 0
        = some (RunResult.spawnFailed
            { proc := [], process_timeout := 0, max_processes := 2 } 0 [] []))
    ∧ ((RunResult.spawnFailed
          { proc := [], process_timeout := 0, max_processes := 2 } 0 [] []).isOk = false
      ∧ ∃ p1 t1 evs obs,
          RunResult.spawnFailed { proc := [], process_timeout := 0, max_processes := 2 } 0 [] []
            = RunResult.spawnFailed p1 t1 evs obs
          ∧ p1.proc.Sublist
              ({ proc := [], process_timeout := 0, max_processes := 2 } : ProcessPool).proc
          ∧ p1.max_processes
              = ({ proc := [], process_timeout := 0, max_processes := 2 } : ProcessPool).max_processes
          ∧ p1.process_timeout
              = ({ proc := [], process_timeout := 0, max_processes := 2 } : ProcessPool).process_timeout) :=
  ⟨⟨rfl, by decide⟩,
   run_spawn_failure { proc := [], process_timeout := 0, max_processes := 2 }
     { pid := 9, lifetime := some 5, ok := false } 3 0
     (RunResult.spawnFailed { proc := [], process_timeout := 0, max_processes := 2 } 0 [] [])
     rfl (by decide)⟩

/-- Witness for `run_nonpos_never_returns`: capacity 0 makes `run` diverge
(return `none` for this fuel, and by the theorem for every fuel). -/
theorem run_nonpos_never_returns_w :
    (({ proc := [], process_timeout := 0, max_processes := 0 } : ProcessPool).max_processes ≤ 0)
    ∧ ProcessPool.run { proc := [], process_timeout := 0, max_processes := 0 }
        { pid := 1, lifetime := some 1, ok := true } 2 0 = none :=
  ⟨by decide,
   run_nonpos_never_returns { proc := [], process_timeout := 0, max_processes := 0 }
     (by decide) { pid := 1, lifetime := some 1, ok := true } 2 0⟩

/-- Witness for `kill_signals_target_running`: the sweep kill of
`clean_kills_overdue_w`'s scenario and a `killall` kill both target processes
that were still running. -/
theorem kill_signals_target_running_w :
    killIsSafe (Ev.sweepKill { pid := 7, startTime := 0, exitTime := none, killed := false } 10)
    ∧ killIsSafe (Ev.killallKill { pid := 7, startTime := 0, exitTime := none, killed := false } 3) :=
  ⟨(kill_signals_target_running
      { proc := [{ pid := 7, startTime := 0, exitTime := none, killed := false }],
        process_timeout := 5, max_processes := 8 } 10).1 _ (by decide),
   (kill_signals_target_running
      { proc := [{ pid := 7, startTime := 0, exitTime := none, killed := false }],
        process_timeout := 0, max_processes := 8 } 3).2 _ (by decide)⟩

/-- Witness for `url_filename_roundtrip` at the remainder `a/b`. -/
theorem url_filename_roundtrip_w :
    ("a/b".toList ≠ [] ∧ '+' ∉ "a/b".toList ∧ '_' ∉ "a/b".toList ∧ ' ' ∉ "a/b".toList
      ∧ hasDoubleSlash "a/b".toList = false
      ∧ ("a/b".toList).getLast? ≠ some '/' ∧ ("a/b".toList).head? ≠ some '/')
    ∧ guessUrlFromFilename (url2filename ("http://".toList ++ "a/b".toList))
        = "http://".toList ++ "a/b".toList :=
  ⟨by decide,
   url_filename_roundtrip "a/b".toList (by decide) (by decide) (by decide) (by decide)
     (by decide) (by decide) (by decide)⟩
